import Mathlib

/-!
Verification development for the particle-simulation engine core implied by
the mechanica-binder notebooks.  The repository's own files are notebooks
that drive the external engine (`mechanica`); the engine core they exercise
(lattice builder, bonded network with fracture, potential/force dispatch,
boundary conditions, flux transport, integrator) is not part of the
repository, so every definition below is modelled from the specification's
description of that core, over exact rational arithmetic.
-/

namespace Mechanica

/-- Modelled from the spec: a 3-component spatial vector.  The engine's
vector type is external; positions, velocities and forces are modelled
over exact rationals. -/
structure Vec3 where
  x : ℚ
  y : ℚ
  z : ℚ
deriving DecidableEq

instance : Add Vec3 :=
  ⟨fun u v => ⟨u.x + v.x, u.y + v.y, u.z + v.z⟩⟩

instance : Zero Vec3 :=
  ⟨⟨0, 0, 0⟩⟩

instance : SMul ℚ Vec3 :=
  ⟨fun c v => ⟨c * v.x, c * v.y, c * v.z⟩⟩

theorem Vec3.add_def (u v : Vec3) : u + v = ⟨u.x + v.x, u.y + v.y, u.z + v.z⟩ := rfl

theorem Vec3.zero_def : (0 : Vec3) = ⟨0, 0, 0⟩ := rfl

theorem Vec3.smul_def (c : ℚ) (v : Vec3) : c • v = ⟨c * v.x, c * v.y, c * v.z⟩ := rfl

@[simp] theorem Vec3.add_x (u v : Vec3) : (u + v).x = u.x + v.x := rfl

@[simp] theorem Vec3.add_y (u v : Vec3) : (u + v).y = u.y + v.y := rfl

@[simp] theorem Vec3.add_z (u v : Vec3) : (u + v).z = u.z + v.z := rfl

@[simp] theorem Vec3.smul_x (c : ℚ) (v : Vec3) : (c • v).x = c * v.x := rfl

@[simp] theorem Vec3.smul_y (c : ℚ) (v : Vec3) : (c • v).y = c * v.y := rfl

@[simp] theorem Vec3.smul_z (c : ℚ) (v : Vec3) : (c • v).z = c * v.z := rfl

@[simp] theorem Vec3.zero_x : (0 : Vec3).x = 0 := rfl

@[simp] theorem Vec3.zero_y : (0 : Vec3).y = 0 := rfl

@[simp] theorem Vec3.zero_z : (0 : Vec3).z = 0 := rfl

/-- Modelled from the spec: a bond references exactly two particles (by id),
and carries an optional dissociation energy; the potential and rest length
play no role in the fracture bookkeeping and are omitted here. -/
structure Bond where
  bid : Nat
  pa : Nat
  pb : Nat
  dissociationEnergy : Option ℚ
deriving DecidableEq

/-- Modelled from the spec: one FractureMonitor pass.  `energy` gives each
bond's instantaneous potential energy (computed by PotentialEvaluator for
this step).  Every bond with a set dissociation energy whose energy exceeds
the threshold is removed; bonds with unset dissociation energy are kept
unconditionally. -/
def fractureStep (energy : Nat → ℚ) (net : List Bond) : List Bond :=
  net.filter (fun b =>
    match b.dissociationEnergy with
    | none => true
    | some e => decide (energy b.bid ≤ e))

/-- Modelled from the spec: the fracture phase of successive steps.  The
trace `es` lists, for each step, the bond energies computed in that step;
the network after step `t` is the fold of `fractureStep` over the first
`t` entries. -/
def runFracture (es : List (Nat → ℚ)) (net : List Bond) : List Bond :=
  es.foldl (fun acc e => fractureStep e acc) net

theorem fractureStep_subset (energy : Nat → ℚ) (net : List Bond) :
    ∀ b : Bond, b ∈ fractureStep energy net → b ∈ net := by
  intro b hb
  exact List.mem_of_mem_filter hb

theorem not_mem_fractureStep (energy : Nat → ℚ) (net : List Bond) (b : Bond)
    (hb : b ∉ net) : b ∉ fractureStep energy net := by
  intro h
  exact hb (fractureStep_subset energy net b h)

theorem not_mem_runFracture (es : List (Nat → ℚ)) (net : List Bond) (b : Bond)
    (hb : b ∉ net) : b ∉ runFracture es net := by
  induction es generalizing net with
  | nil => exact hb
  | cons e es ih =>
      exact ih (fractureStep e net) (not_mem_fractureStep e net b hb)

theorem fractureStep_removes (energy : Nat → ℚ) (net : List Bond) (b : Bond)
    (E : ℚ) (hE : b.dissociationEnergy = some E) (hgt : E < energy b.bid) :
    b ∉ fractureStep energy net := by
  intro h
  have h2 := List.of_mem_filter h
  rw [hE] at h2
  simp only [decide_eq_true_eq] at h2
  exact absurd h2 (not_le.mpr hgt)

theorem fractureStep_none_mem (energy : Nat → ℚ) (net : List Bond) (b : Bond)
    (hE : b.dissociationEnergy = none) : b ∈ fractureStep energy net ↔ b ∈ net := by
  constructor
  · exact fractureStep_subset energy net b
  · intro h
    apply List.mem_filter.mpr
    refine ⟨h, ?_⟩
    rw [hE]

theorem runFracture_append (es fs : List (Nat → ℚ)) (net : List Bond) :
    runFracture (es ++ fs) net = runFracture fs (runFracture es net) := by
  simp [runFracture, List.foldl_append]

/-- C1: once a bond's computed potential energy exceeds its set dissociation
energy at some step `t`, the bond is absent from the network after step `t`
and after every later step (it is never re-created); and a bond with unset
dissociation energy is never removed by the FractureMonitor in any step. -/
theorem fracture_threshold_permanent (es : List (Nat → ℚ)) (net : List Bond) (b : Bond) :
    (∀ t : Fin es.length, ∀ E : ℚ, b.dissociationEnergy = some E →
        E < es.get t b.bid →
        ∀ k : Nat, t.val < k → b ∉ runFracture (List.take k es) net)
    ∧ (b.dissociationEnergy = none → (b ∈ runFracture es net ↔ b ∈ net)) := by
  constructor
  · intro t E hE hgt k hk
    -- after step t+1 the bond is gone; absence is then preserved forever
    have hgone : b ∉ runFracture (List.take (t.val + 1) es) net := by
      have htake : List.take (t.val + 1) es = List.take t.val es ++ [es.get t] := by
        simp [List.take_concat_get es t.val t.isLt]
      rw [htake, runFracture_append]
      have : runFracture [es.get t] (runFracture (List.take t.val es) net)
          = fractureStep (es.get t) (runFracture (List.take t.val es) net) := rfl
      rw [this]
      exact fractureStep_removes (es.get t) _ b E hE hgt
    have hsplit : List.take k es = List.take (t.val + 1) es
        ++ List.take (k - (t.val + 1)) (List.drop (t.val + 1) es) := by
      have hk' : t.val + 1 + (k - (t.val + 1)) = k := Nat.add_sub_cancel' hk
      calc List.take k es
          = List.take (t.val + 1 + (k - (t.val + 1))) es := by rw [hk']
        _ = List.take (t.val + 1) es
            ++ List.take (k - (t.val + 1)) (List.drop (t.val + 1) es) :=
          List.take_add es (t.val + 1) (k - (t.val + 1))
    rw [hsplit, runFracture_append]
    exact not_mem_runFracture _ _ b hgone
  · intro hE
    induction es generalizing net with
    | nil => exact Iff.rfl
    | cons e es ih =>
        have hstep : runFracture (e :: es) net = runFracture es (fractureStep e net) := rfl
        rw [hstep]
        exact (ih (fractureStep e net)).trans (fractureStep_none_mem e net b hE)

/-- Concrete fracture scenario used as witness data: one bond with
dissociation energy 1 and one with it unset, one step with energy 2. -/
def bondA : Bond := ⟨0, 0, 1, some 1⟩

/-- Concrete bond with unset dissociation energy. -/
def bondB : Bond := ⟨1, 1, 2, none⟩

/-- Concrete network for the fracture witness. -/
def netW : List Bond := [bondA, bondB]

/-- Concrete one-step energy trace for the fracture witness. -/
def esW : List (Nat → ℚ) := [fun _ => 2]

theorem fracture_threshold_permanent_witness :
    bondA ∉ runFracture (List.take 1 esW) netW
    ∧ (bondB ∈ runFracture esW netW ↔ bondB ∈ netW) := by
  constructor
  · have ht : 0 < esW.length := by simp [esW]
    have hlt : (1 : ℚ) < esW.get ⟨0, ht⟩ bondA.bid := by
      show (1 : ℚ) < 2
      norm_num
    exact (fracture_threshold_permanent esW netW bondA).1 ⟨0, ht⟩ 1 rfl hlt 1 (by norm_num)
  · exact (fracture_threshold_permanent esW netW bondB).2 rfl

/-- Modelled from the spec: a registered particle type: radius, mass,
per-axis frozen flags, dynamics mode (Newtonian or Overdamped), and the
species list's initial concentrations and constant flags. -/
structure ParticleType where
  radius : ℚ
  mass : ℚ
  frozen : Bool × Bool × Bool
  overdamped : Bool
  speciesInit : List ℚ
  speciesConst : List Bool
deriving DecidableEq

/-- Modelled from the spec: a particle instance: id, owning type id,
position, velocity, per-species concentration vector, active flag. -/
structure Particle where
  pid : Nat
  typeId : Nat
  pos : Vec3
  vel : Vec3
  conc : List ℚ
  active : Bool
deriving DecidableEq

/-- Modelled from the spec: zero the components of a vector on every axis
flagged frozen. -/
def zeroFrozen (fr : Bool × Bool × Bool) (v : Vec3) : Vec3 :=
  ⟨if fr.1 then 0 else v.x, if fr.2.1 then 0 else v.y, if fr.2.2 then 0 else v.z⟩

/-- Modelled from the spec: the Integrator's update of one particle under
the accumulated force of the step.  Frozen-axis force and velocity
components are zeroed both before and after the velocity update; Newtonian
types use a symplectic step (velocity from force and mass, then position
from the new velocity), Overdamped types set velocity directly proportional
to force. -/
def integrate (ty : ParticleType) (dt : ℚ) (force : Vec3) (p : Particle) : Particle :=
  let f := zeroFrozen ty.frozen force
  let v0 := zeroFrozen ty.frozen p.vel
  let v1 := if ty.overdamped then (1 / ty.mass) • f else v0 + (dt / ty.mass) • f
  let v2 := zeroFrozen ty.frozen v1
  { p with pos := p.pos + dt • v2, vel := v2 }

/-- Modelled from the spec: `n` integration steps, one arbitrary accumulated
force per step (covering bound forces, potentials and boundary
interactions). -/
def integrateSteps (ty : ParticleType) (dt : ℚ) (forces : List Vec3) (p : Particle) : Particle :=
  forces.foldl (fun q f => integrate ty dt f q) p

theorem integrate_frozen_x (ty : ParticleType) (dt : ℚ) (f : Vec3) (p : Particle)
    (h : ty.frozen.1 = true) : (integrate ty dt f p).pos.x = p.pos.x := by
  simp [integrate, zeroFrozen, h]

theorem integrate_frozen_y (ty : ParticleType) (dt : ℚ) (f : Vec3) (p : Particle)
    (h : ty.frozen.2.1 = true) : (integrate ty dt f p).pos.y = p.pos.y := by
  simp [integrate, zeroFrozen, h]

theorem integrate_frozen_z (ty : ParticleType) (dt : ℚ) (f : Vec3) (p : Particle)
    (h : ty.frozen.2.2 = true) : (integrate ty dt f p).pos.z = p.pos.z := by
  simp [integrate, zeroFrozen, h]

/-- C4: coordinates on axes flagged frozen by the particle's type are
exactly unchanged after any number of integration steps, whatever the
per-step accumulated forces are. -/
theorem frozen_axis_invariant (ty : ParticleType) (dt : ℚ) (forces : List Vec3)
    (p : Particle) :
    (ty.frozen.1 = true → (integrateSteps ty dt forces p).pos.x = p.pos.x)
    ∧ (ty.frozen.2.1 = true → (integrateSteps ty dt forces p).pos.y = p.pos.y)
    ∧ (ty.frozen.2.2 = true → (integrateSteps ty dt forces p).pos.z = p.pos.z) := by
  induction forces generalizing p with
  | nil => exact ⟨fun _ => rfl, fun _ => rfl, fun _ => rfl⟩
  | cons f fs ih =>
      have hstep : integrateSteps ty dt (f :: fs) p
          = integrateSteps ty dt fs (integrate ty dt f p) := rfl
      refine ⟨fun h => ?_, fun h => ?_, fun h => ?_⟩
      · rw [hstep, (ih (integrate ty dt f p)).1 h, integrate_frozen_x ty dt f p h]
      · rw [hstep, (ih (integrate ty dt f p)).2.1 h, integrate_frozen_y ty dt f p h]
      · rw [hstep, (ih (integrate ty dt f p)).2.2 h, integrate_frozen_z ty dt f p h]

/-- Concrete particle type with a frozen `y` axis, used as witness data. -/
def frozenYType : ParticleType :=
  ⟨1, 1, (false, true, false), false, [], []⟩

/-- Concrete particle for the frozen-axis witness. -/
def pW : Particle :=
  ⟨0, 0, ⟨1, 2, 3⟩, ⟨4, 5, 6⟩, [], true⟩

theorem frozen_axis_invariant_witness :
    (integrateSteps frozenYType 1 [⟨0, 7, 0⟩, ⟨0, -9, 2⟩] pW).pos.y = pW.pos.y :=
  (frozen_axis_invariant frozenYType 1 [⟨0, 7, 0⟩, ⟨0, -9, 2⟩] pW).2.1 rfl

instance : Inhabited Particle :=
  ⟨⟨0, 0, 0, 0, [], false⟩⟩

/-- Modelled from the spec: a bound species-flux rule
`(typeA, typeB, species, rate)`; the species name is resolved to an index. -/
structure FluxRule where
  typeA : Nat
  typeB : Nat
  species : Nat
  rate : ℚ
deriving DecidableEq

/-- Modelled from the spec: the flux-delta field contributed by one rule on
one interacting neighbor pair `(a, b)`, read from the committed pre-step
state (`typeOf`, `concOf`).  When the pair's types match the rule (in
either orientation), the amount `rate * (conc_a - conc_b)` leaves the first
matching particle and enters the second; otherwise the contribution is
zero. -/
def ruleContrib (r : FluxRule) (typeOf : Nat → Nat) (concOf : Nat → Nat → ℚ)
    (a b : Nat) : Nat → Nat → ℚ :=
  if typeOf a = r.typeA ∧ typeOf b = r.typeB then
    fun p s =>
      (if p = a ∧ s = r.species then
        -(r.rate * (concOf a r.species - concOf b r.species)) else 0)
      + (if p = b ∧ s = r.species then
        r.rate * (concOf a r.species - concOf b r.species) else 0)
  else if typeOf b = r.typeA ∧ typeOf a = r.typeB then
    fun p s =>
      (if p = b ∧ s = r.species then
        -(r.rate * (concOf b r.species - concOf a r.species)) else 0)
      + (if p = a ∧ s = r.species then
        r.rate * (concOf b r.species - concOf a r.species) else 0)
  else fun _ _ => 0

/-- Modelled from the spec: total flux-delta field of one neighbor pair,
summed over all bound flux rules. -/
def pairContrib (rules : List FluxRule) (typeOf : Nat → Nat) (concOf : Nat → Nat → ℚ)
    (pr : Nat × Nat) : Nat → Nat → ℚ := fun p s =>
  (rules.map (fun r => ruleContrib r typeOf concOf pr.1 pr.2 p s)).sum

/-- Modelled from the spec: the accumulate phase of the neighbor scan: the
per-particle, per-species delta buffer built by folding each pair's
contribution into an initially zero buffer, reading concentrations only
from the committed pre-step state. -/
def accumFluxDeltas (rules : List FluxRule) (typeOf : Nat → Nat)
    (concOf : Nat → Nat → ℚ) (pairs : List (Nat × Nat)) : Nat → Nat → ℚ :=
  pairs.foldl (fun δ pr => fun p s => δ p s + pairContrib rules typeOf concOf pr p s)
    (fun _ _ => 0)

theorem accumFluxDeltas_eq_sum (rules : List FluxRule) (typeOf : Nat → Nat)
    (concOf : Nat → Nat → ℚ) (pairs : List (Nat × Nat)) (p s : Nat) :
    accumFluxDeltas rules typeOf concOf pairs p s
      = (pairs.map (fun pr => pairContrib rules typeOf concOf pr p s)).sum := by
  have key : ∀ (l : List (Nat × Nat)) (δ0 : Nat → Nat → ℚ),
      (l.foldl (fun δ pr => fun p s => δ p s + pairContrib rules typeOf concOf pr p s) δ0) p s
        = δ0 p s + (l.map (fun pr => pairContrib rules typeOf concOf pr p s)).sum := by
    intro l
    induction l with
    | nil => intro δ0; simp
    | cons pr l ih =>
        intro δ0
        simp only [List.foldl_cons, List.map_cons, List.sum_cons]
        rw [ih]
        ring
  have h := key pairs (fun _ _ => 0)
  simpa [accumFluxDeltas] using h

theorem accumFluxDeltas_perm (rules : List FluxRule) (typeOf : Nat → Nat)
    (concOf : Nat → Nat → ℚ) (pairs pairs' : List (Nat × Nat))
    (hperm : pairs.Perm pairs') :
    accumFluxDeltas rules typeOf concOf pairs
      = accumFluxDeltas rules typeOf concOf pairs' := by
  funext p s
  rw [accumFluxDeltas_eq_sum, accumFluxDeltas_eq_sum]
  exact ((hperm.map _).sum_eq)

/-- Modelled from the spec: find a particle in the pool by id. -/
def findParticle (pool : List Particle) (i : Nat) : Option Particle :=
  pool.find? (fun p => decide (p.pid = i))

/-- Modelled from the spec: a particle's type id, read from the committed
pool state. -/
def typeOfPool (pool : List Particle) (i : Nat) : Nat :=
  ((findParticle pool i).map Particle.typeId).getD 0

/-- Modelled from the spec: a particle's species concentration, read from
the committed pool state. -/
def concOfPool (pool : List Particle) (i s : Nat) : ℚ :=
  ((findParticle pool i).map (fun p => p.conc.getD s 0)).getD 0

/-- Modelled from the spec: the Integrator's species update of one
concentration vector: each non-constant species receives its accumulated
flux delta; a species marked constant ignores its flux delta entirely. -/
def updateConc (constFlags : List Bool) (δs : Nat → ℚ) (conc : List ℚ) : List ℚ :=
  (List.range conc.length).map (fun s =>
    if constFlags.getD s false then conc.getD s 0 else conc.getD s 0 + δs s)

/-- Modelled from the spec: apply the accumulated flux deltas to one
particle, respecting its type's constant-species flags; no other particle
state is touched. -/
def applySpeciesDeltas (types : Nat → ParticleType) (δ : Nat → Nat → ℚ)
    (p : Particle) : Particle :=
  { p with conc := updateConc (types p.typeId).speciesConst (fun s => δ p.pid s) p.conc }

/-- Modelled from the spec: the flux transport of one step
(accumulate-then-apply): the delta buffer is accumulated over the full
neighbor-pair scan against the committed pre-step state, and only then
applied to every particle. -/
def fluxStep (types : Nat → ParticleType) (rules : List FluxRule)
    (pairs : List (Nat × Nat)) (pool : List Particle) : List Particle :=
  pool.map (applySpeciesDeltas types
    (accumFluxDeltas rules (typeOfPool pool) (concOfPool pool) pairs))

/-- C6: each matching neighbor pair exchanges `rate * (conc_a - conc_b)` of
the rule's species (debited from `a`, credited to `b`), and because all
exchanges of a step are accumulated into a delta buffer against the
committed pre-step state and applied only after the full scan, the
post-step concentrations are identical for every permutation of the
pair-iteration order. -/
theorem flux_order_independent :
    (∀ (r : FluxRule) (typeOf : Nat → Nat) (concOf : Nat → Nat → ℚ) (a b : Nat),
        typeOf a = r.typeA → typeOf b = r.typeB → a ≠ b →
        accumFluxDeltas [r] typeOf concOf [(a, b)] a r.species
            = -(r.rate * (concOf a r.species - concOf b r.species))
        ∧ accumFluxDeltas [r] typeOf concOf [(a, b)] b r.species
            = r.rate * (concOf a r.species - concOf b r.species))
    ∧ (∀ (types : Nat → ParticleType) (rules : List FluxRule)
        (pairs pairs' : List (Nat × Nat)) (pool : List Particle),
        pairs.Perm pairs' →
        fluxStep types rules pairs pool = fluxStep types rules pairs' pool) := by
  constructor
  · intro r typeOf concOf a b hA hB hab
    constructor
    · rw [accumFluxDeltas_eq_sum]
      simp [pairContrib, ruleContrib, hA, hB, hab]
    · rw [accumFluxDeltas_eq_sum]
      simp [pairContrib, ruleContrib, hA, hB, (Ne.symm hab)]
  · intro types rules pairs pairs' pool hperm
    unfold fluxStep
    rw [accumFluxDeltas_perm rules (typeOfPool pool) (concOfPool pool) pairs pairs' hperm]

/-- Concrete flux rule used as witness data. -/
def ruleW : FluxRule := ⟨0, 0, 0, 1/2⟩

/-- Concrete type table for the flux witness. -/
def typesW : Nat → ParticleType := fun _ => ⟨1, 1, (false, false, false), false, [1], [false]⟩

/-- Concrete pool for the flux witness. -/
def poolW : List Particle :=
  [⟨0, 0, 0, 0, [1], true⟩, ⟨1, 0, 0, 0, [0], true⟩, ⟨2, 0, 0, 0, [1/2], true⟩]

theorem flux_order_independent_witness :
    (accumFluxDeltas [ruleW] (fun _ => 0) (fun i s => (i : ℚ) + s) [(0, 1)] 0 ruleW.species
        = -(ruleW.rate * ((fun i s => (i : ℚ) + s) 0 ruleW.species
            - (fun i s => (i : ℚ) + s) 1 ruleW.species)))
    ∧ fluxStep typesW [ruleW] [(0, 1), (1, 2)] poolW
        = fluxStep typesW [ruleW] [(1, 2), (0, 1)] poolW := by
  constructor
  · exact ((flux_order_independent).1 ruleW (fun _ => 0) (fun i s => (i : ℚ) + s) 0 1
      rfl rfl (by decide)).1
  · exact (flux_order_independent).2 typesW [ruleW] [(0, 1), (1, 2)] [(1, 2), (0, 1)]
      poolW (by decide)

/-- C8: a species marked constant by the particle's type ignores the
accumulated flux deltas entirely — its concentration is unchanged by the
step whatever the delta buffer holds — while non-constant species receive
their deltas and the rest of the particle's state is untouched by the
species update; the same holds through `fluxStep` for any flux rules and
any pair scan. -/
theorem constant_species_frame (types : Nat → ParticleType) (δ : Nat → Nat → ℚ)
    (p : Particle) (s : Nat) :
    ((types p.typeId).speciesConst.getD s false = true →
        (applySpeciesDeltas types δ p).conc.getD s 0 = p.conc.getD s 0)
    ∧ ((types p.typeId).speciesConst.getD s false = false → s < p.conc.length →
        (applySpeciesDeltas types δ p).conc.getD s 0 = p.conc.getD s 0 + δ p.pid s)
    ∧ (applySpeciesDeltas types δ p).pid = p.pid
    ∧ (applySpeciesDeltas types δ p).typeId = p.typeId
    ∧ (applySpeciesDeltas types δ p).pos = p.pos
    ∧ (applySpeciesDeltas types δ p).vel = p.vel
    ∧ (∀ (rules : List FluxRule) (pairs : List (Nat × Nat)) (pool : List Particle)
        (i : Nat), i < pool.length →
        (types (pool.getD i default).typeId).speciesConst.getD
            ((pool.getD i default).conc.length + s) false = true →
        ((fluxStep types rules pairs pool).getD i default).conc.getD
            ((pool.getD i default).conc.length + s) 0
          = (pool.getD i default).conc.getD ((pool.getD i default).conc.length + s) 0) := by
  have hlen : ∀ (cf : List Bool) (ds : Nat → ℚ) (c : List ℚ),
      (updateConc cf ds c).length = c.length := by
    intro cf ds c; simp [updateConc]
  have hpoint : ∀ (cf : List Bool) (ds : Nat → ℚ) (c : List ℚ) (t : Nat),
      t < c.length →
      (updateConc cf ds c).getD t 0
        = if cf.getD t false then c.getD t 0 else c.getD t 0 + ds t := by
    intro cf ds c t ht
    have hl : t < (updateConc cf ds c).length := by rw [hlen]; exact ht
    rw [List.getD_eq_getElem _ _ hl]
    simp [updateConc, ht]
  have hconst : ∀ (types' : Nat → ParticleType) (δ' : Nat → Nat → ℚ) (q : Particle)
      (t : Nat), (types' q.typeId).speciesConst.getD t false = true →
      (applySpeciesDeltas types' δ' q).conc.getD t 0 = q.conc.getD t 0 := by
    intro types' δ' q t hc
    have happly : (applySpeciesDeltas types' δ' q).conc
        = updateConc (types' q.typeId).speciesConst (fun u => δ' q.pid u) q.conc := rfl
    by_cases ht : t < q.conc.length
    · rw [happly, hpoint _ _ _ _ ht, hc]
      simp
    · have h2 : q.conc.length ≤ t := Nat.le_of_not_lt ht
      have h3 : (applySpeciesDeltas types' δ' q).conc.length = q.conc.length := by
        rw [happly]; exact hlen _ _ _
      rw [List.getD_eq_default _ _ (by rw [h3]; exact h2), List.getD_eq_default _ _ h2]
  refine ⟨hconst types δ p s, ?_, rfl, rfl, rfl, rfl, ?_⟩
  · intro hc hs
    have happly : (applySpeciesDeltas types δ p).conc
        = updateConc (types p.typeId).speciesConst (fun u => δ p.pid u) p.conc := rfl
    rw [happly, hpoint _ _ _ _ hs, hc]
    simp
  · intro rules pairs pool i hi hc
    have hget : (fluxStep types rules pairs pool).getD i default
        = applySpeciesDeltas types
            (accumFluxDeltas rules (typeOfPool pool) (concOfPool pool) pairs)
            (pool.getD i default) := by
      rw [List.getD_eq_getElem _ _ (by simp [fluxStep]; exact hi),
        List.getD_eq_getElem _ _ hi]
      simp [fluxStep]
    rw [hget]
    exact hconst types _ (pool.getD i default) _ hc

/-- Concrete flux-delta buffer used as witness data. -/
def deltaW : Nat → Nat → ℚ := fun _ _ => 7

/-- Concrete particle with one constant species, used as witness data. -/
def pConstW : Particle := ⟨3, 1, 0, 0, [5], true⟩

/-- Concrete type table marking species 0 of type 1 constant. -/
def typesConstW : Nat → ParticleType := fun t =>
  if t = 1 then ⟨1, 1, (false, false, false), false, [0], [true]⟩
  else ⟨1, 1, (false, false, false), false, [1], [false]⟩

theorem constant_species_frame_witness :
    (typesConstW pConstW.typeId).speciesConst.getD 0 false = true
    ∧ (applySpeciesDeltas typesConstW deltaW pConstW).conc.getD 0 0 = pConstW.conc.getD 0 0 :=
  ⟨by decide, (constant_species_frame typesConstW deltaW pConstW 0).1 (by decide)⟩

instance : AddCommMonoid Vec3 where
  add_assoc a b c := by
    simp only [Vec3.add_def, Vec3.mk.injEq]
    refine ⟨by ring, by ring, by ring⟩
  zero_add a := by simp [Vec3.add_def, Vec3.zero_def]
  add_zero a := by simp [Vec3.add_def, Vec3.zero_def]
  add_comm a b := by
    simp only [Vec3.add_def, Vec3.mk.injEq]
    refine ⟨by ring, by ring, by ring⟩
  nsmul := nsmulRec

/-- Modelled from the spec: the net force accumulated on a particle in one
step: every bound contributor (potential-derived or explicitly bound force)
is evaluated on the particle and folded additively into the particle's
force accumulator. -/
def netForce (fs : List (Particle → Vec3)) (p : Particle) : Vec3 :=
  fs.foldl (fun acc f => acc + f p) 0

/-- C7: the net force accumulated on a particle equals the sum of the
individual bound contributions, and the composition is commutative: any
two binding orders of the same contributors evaluate to identical net
forces. -/
theorem force_composition_commutative (fs fs' : List (Particle → Vec3)) (p : Particle) :
    netForce fs p = (fs.map (fun f => f p)).sum
    ∧ (fs.Perm fs' → netForce fs p = netForce fs' p) := by
  have hsum : ∀ gs : List (Particle → Vec3), netForce gs p = (gs.map (fun f => f p)).sum := by
    intro gs
    rw [netForce, List.sum_eq_foldl, List.foldl_map]
  refine ⟨hsum fs, fun hperm => ?_⟩
  rw [hsum fs, hsum fs']
  exact (hperm.map (fun f => f p)).sum_eq

/-- Concrete first force contributor for the composition witness. -/
def forceF : Particle → Vec3 := fun _ => ⟨0, 2, 0⟩

/-- Concrete second force contributor (a friction-like term) for the
composition witness. -/
def forceG : Particle → Vec3 := fun p => ⟨-p.vel.x, -p.vel.y, -p.vel.z⟩

theorem force_composition_commutative_witness :
    netForce [forceF, forceG] pW = netForce [forceG, forceF] pW :=
  (force_composition_commutative [forceF, forceG] [forceG, forceF] pW).2
    (List.Perm.swap forceG forceF [])

/-- Modelled from the spec: crossing detection for the x-axis boundary
pair: a particle has crossed when its coordinate has left `[0, extent)`. -/
def crossesX (extent : ℚ) (pos : Vec3) : Bool :=
  decide (pos.x < 0) || decide (extent ≤ pos.x)

/-- Modelled from the spec: one full per-particle step with an x-axis reset
boundary: the Integrator advances the particle under the step's accumulated
force; a particle that thereby crosses the reset boundary has its whole
species concentration vector restored to its type's registered initial
concentrations, while a non-crossing particle receives the accumulated
flux deltas as usual. -/
def particleStep (types : Nat → ParticleType) (extent : ℚ) (resetOn : Bool)
    (δ : Nat → Nat → ℚ) (dt : ℚ) (force : Vec3) (p : Particle) : Particle :=
  let q := integrate (types p.typeId) dt force p
  if resetOn = true ∧ crossesX extent q.pos = true then
    { q with conc := (types q.typeId).speciesInit }
  else
    applySpeciesDeltas types δ q

/-- C5: a particle that crosses a reset boundary during a step has, right
after that step, its whole concentration vector exactly equal to its
type's registered initial concentrations. -/
theorem reset_boundary_restores (types : Nat → ParticleType) (extent : ℚ)
    (δ : Nat → Nat → ℚ) (dt : ℚ) (force : Vec3) (p : Particle)
    (hcross : crossesX extent (integrate (types p.typeId) dt force p).pos = true) :
    (particleStep types extent true δ dt force p).conc
      = (types p.typeId).speciesInit := by
  have htid : (integrate (types p.typeId) dt force p).typeId = p.typeId := rfl
  rw [particleStep]
  simp only [hcross, and_self, if_pos]
  rw [htid]

/-- Concrete overdamped type with initial concentration 1, used as witness
data for the reset boundary. -/
def carrierW : Nat → ParticleType := fun _ =>
  ⟨1, 1, (false, false, false), true, [1], [false]⟩

/-- Concrete particle about to cross the x boundary, used as witness data. -/
def pCrossW : Particle := ⟨0, 0, ⟨9, 1, 1⟩, 0, [1/4], true⟩

theorem reset_boundary_restores_witness :
    crossesX 10 (integrate (carrierW pCrossW.typeId) 1 ⟨2, 0, 0⟩ pCrossW).pos = true
    ∧ (particleStep carrierW 10 true deltaW 1 ⟨2, 0, 0⟩ pCrossW).conc
        = (carrierW pCrossW.typeId).speciesInit := by
  have h : crossesX 10 (integrate (carrierW pCrossW.typeId) 1 ⟨2, 0, 0⟩ pCrossW).pos = true := by
    have hx : (integrate (carrierW pCrossW.typeId) 1 ⟨2, 0, 0⟩ pCrossW).pos.x = 11 := by
      simp [integrate, zeroFrozen, carrierW, pCrossW]
      norm_num
    simp [crossesX, hx]
    norm_num
  exact ⟨h, reset_boundary_restores carrierW 10 deltaW 1 ⟨2, 0, 0⟩ pCrossW h⟩

/-- Modelled from the spec: the simulation state the reassignment operation
touches: the particle pool and the BondedNetwork's bond list. -/
structure SimState where
  pool : List Particle
  bonds : List Bond
deriving DecidableEq

/-- Modelled from the spec: per-particle effect of a type reassignment:
only the particle with the given id changes, and only its owning type id
field. -/
def reassignParticle (i newTy : Nat) (p : Particle) : Particle :=
  if p.pid = i then { p with typeId := newTy } else p

/-- Modelled from the spec: `reassign_type` (`become`): relocate a particle
to a new type by rewriting its type id; per-type membership is a derived
index, and no other simulation state is touched. -/
def reassignType (st : SimState) (i newTy : Nat) : SimState :=
  { st with pool := st.pool.map (reassignParticle i newTy) }

/-- Modelled from the spec: a type's membership set, derived from the pool
as the ids of the particles owning that type id. -/
def members (st : SimState) (ty : Nat) : List Nat :=
  (st.pool.filter (fun p => decide (p.typeId = ty))).map Particle.pid

/-- Modelled from the spec: `query_bonds_of`: the bonds incident to a
particle id. -/
def bondsOf (st : SimState) (i : Nat) : List Bond :=
  st.bonds.filter (fun b => decide (b.pa = i) || decide (b.pb = i))

/-- C10: reassigning a live particle's type changes only its type
membership: the bond list and every incidence query are unchanged, the
particle keeps its id, position, velocity and concentrations (only the
type id field is rewritten), every other particle is untouched, and
afterwards the particle's id is absent from every other type's membership
set and present in the new type's membership set. -/
theorem reassign_type_frame (st : SimState) (i newTy : Nat) :
    (reassignType st i newTy).bonds = st.bonds
    ∧ (∀ j, bondsOf (reassignType st i newTy) j = bondsOf st j)
    ∧ findParticle (reassignType st i newTy).pool i
        = (findParticle st.pool i).map (fun p => { p with typeId := newTy })
    ∧ (∀ j, j ≠ i → findParticle (reassignType st i newTy).pool j = findParticle st.pool j)
    ∧ (∀ ty, ty ≠ newTy → i ∉ members (reassignType st i newTy) ty)
    ∧ ((∃ p ∈ st.pool, p.pid = i) → i ∈ members (reassignType st i newTy) newTy) := by
  have hpid : ∀ p : Particle, (reassignParticle i newTy p).pid = p.pid := by
    intro p
    by_cases h : p.pid = i <;> simp [reassignParticle, h]
  have hfind : ∀ j, findParticle (reassignType st i newTy).pool j
      = (st.pool.find? (fun p => decide (p.pid = j))).map (reassignParticle i newTy) := by
    intro j
    have hcomp : ((fun p : Particle => decide (p.pid = j)) ∘ reassignParticle i newTy)
        = fun p : Particle => decide (p.pid = j) := by
      funext p
      simp [Function.comp, hpid p]
    calc findParticle (reassignType st i newTy).pool j
        = (st.pool.map (reassignParticle i newTy)).find? (fun p => decide (p.pid = j)) := rfl
      _ = (st.pool.find? ((fun p : Particle => decide (p.pid = j))
            ∘ reassignParticle i newTy)).map (reassignParticle i newTy) :=
          List.find?_map _ _
      _ = (st.pool.find? (fun p => decide (p.pid = j))).map (reassignParticle i newTy) := by
          rw [hcomp]
  refine ⟨rfl, fun j => rfl, ?_, ?_, ?_, ?_⟩
  · rw [hfind i]
    cases hq : st.pool.find? (fun p => decide (p.pid = i)) with
    | none => simp [findParticle, hq]
    | some q =>
        have hqi : q.pid = i := by
          have := List.find?_some hq
          simpa using this
        simp [findParticle, hq, reassignParticle, hqi]
  · intro j hj
    rw [hfind j]
    cases hq : st.pool.find? (fun p => decide (p.pid = j)) with
    | none => simp [findParticle, hq]
    | some q =>
        have hqj : q.pid = j := by
          have := List.find?_some hq
          simpa using this
        have hqi : ¬q.pid = i := by rw [hqj]; exact hj
        simp [findParticle, hq, reassignParticle, hqi]
  · intro ty hty hmem
    simp only [members, reassignType, List.mem_map, List.mem_filter] at hmem
    obtain ⟨q, ⟨hq, hqty⟩, hqpid⟩ := hmem
    obtain ⟨p, hp, hfp⟩ := hq
    by_cases hpi : p.pid = i
    · have : q.typeId = newTy := by
        rw [← hfp]; simp [reassignParticle, hpi]
      rw [this] at hqty
      exact hty (of_decide_eq_true hqty).symm
    · have hq_eq : q = p := by rw [← hfp]; simp [reassignParticle, hpi]
      rw [hq_eq] at hqpid
      exact hpi hqpid
  · rintro ⟨p, hp, hpi⟩
    simp only [members, reassignType, List.mem_map, List.mem_filter]
    refine ⟨reassignParticle i newTy p, ⟨⟨p, hp, rfl⟩, ?_⟩, ?_⟩
    · simp [reassignParticle, hpi]
    · rw [hpid p]; exact hpi

/-- Concrete two-particle state for the reassignment witness. -/
def stW : SimState :=
  ⟨[⟨0, 0, ⟨1, 0, 0⟩, 0, [], true⟩, ⟨1, 0, ⟨2, 0, 0⟩, 0, [], true⟩],
    [⟨0, 0, 1, none⟩]⟩

theorem reassign_type_frame_witness :
    (reassignType stW 0 5).bonds = stW.bonds
    ∧ (0 ≠ 5 → 0 ∉ members (reassignType stW 0 5) 0)
    ∧ ((∃ p ∈ stW.pool, p.pid = 0) → 0 ∈ members (reassignType stW 0 5) 5) := by
  refine ⟨(reassign_type_frame stW 0 5).1, ?_, ?_⟩
  · intro h
    exact (reassign_type_frame stW 0 5).2.2.2.2.1 0 (by decide)
  · exact (reassign_type_frame stW 0 5).2.2.2.2.2

theorem getD_append_left {α : Type} (l1 l2 : List α) (n : Nat) (d : α)
    (h : n < l1.length) : (l1 ++ l2).getD n d = l1.getD n d := by
  rw [List.getD_eq_getElem _ _ (by simp; omega), List.getD_eq_getElem _ _ h,
    List.getElem_append_left]

theorem getD_append_right {α : Type} (l1 l2 : List α) (n : Nat) (d : α)
    (h : l1.length ≤ n) (hn : n - l1.length < l2.length) :
    (l1 ++ l2).getD n d = l2.getD (n - l1.length) d := by
  rw [List.getD_eq_getElem _ _ (by simp; omega), List.getD_eq_getElem _ _ hn,
    List.getElem_append_right h]

theorem flatMap_range_uniform_length {α : Type} (f : Nat → List α) (c : Nat) :
    ∀ n : Nat, (∀ i, i < n → (f i).length = c) →
    ((List.range n).flatMap f).length = n * c := by
  intro n
  induction n with
  | zero => intro _; simp
  | succ n ih =>
      intro h
      rw [List.range_succ, List.flatMap_append]
      simp only [List.length_append]
      rw [ih (fun i hi => h i (Nat.lt_succ_of_lt hi))]
      have hsing : (([n] : List Nat).flatMap f).length = (f n).length := by simp
      rw [hsing, h n (Nat.lt_succ_self n)]
      ring

theorem flatMap_range_uniform_getD {α : Type} (d : α) (f : Nat → List α) (c : Nat) :
    ∀ (n q r : Nat), (∀ i, i < n → (f i).length = c) → q < n → r < c →
    ((List.range n).flatMap f).getD (q * c + r) d = (f q).getD r d := by
  intro n
  induction n with
  | zero => intro q r _ hq _; exact absurd hq (Nat.not_lt_zero q)
  | succ n ih =>
      intro q r h hq hr
      have h' : ∀ i, i < n → (f i).length = c := fun i hi => h i (Nat.lt_succ_of_lt hi)
      have hlen : ((List.range n).flatMap f).length = n * c :=
        flatMap_range_uniform_length f c n h'
      rw [List.range_succ, List.flatMap_append]
      by_cases hqn : q < n
      · have hidx : q * c + r < ((List.range n).flatMap f).length := by
          rw [hlen]
          calc q * c + r < q * c + c := by omega
            _ = (q + 1) * c := by ring
            _ ≤ n * c := Nat.mul_le_mul_right c hqn
        rw [getD_append_left _ _ _ _ hidx]
        exact ih q r h' hqn hr
      · have hq' : q = n := by omega
        subst hq'
        have hge : ((List.range q).flatMap f).length ≤ q * c + r := by
          rw [hlen]; omega
        have hsing : (([q] : List Nat).flatMap f).length = (f q).length := by simp
        have hlt : q * c + r - ((List.range q).flatMap f).length
            < (([q] : List Nat).flatMap f).length := by
          rw [hlen, hsing, h q (Nat.lt_succ_self q), Nat.add_sub_cancel_left]
          exact hr
        rw [getD_append_right _ _ _ _ hge hlt, hlen, Nat.add_sub_cancel_left]
        simp

/-- Modelled from the spec: a bond rule of a unit cell:
`(basis-index-i, basis-index-j)` and an integer cell-image offset; the
potential-construction callback plays no role in placement or counting and
is omitted. -/
structure BondRule where
  bi : Nat
  bj : Nat
  off : Int × Int × Int
deriving DecidableEq

/-- Modelled from the spec: a unit cell: three lattice vectors, `N` basis
particles with fractional positions and assigned types, and a set of bond
rules. -/
structure UnitCell where
  a1 : Vec3
  a2 : Vec3
  a3 : Vec3
  basisPos : List Vec3
  basisTypes : List Nat
  bondRules : List BondRule
deriving DecidableEq

/-- Modelled from the spec: the spatial origin of cell `(i, j, k)`:
`origin + i*a1 + j*a2 + k*a3`. -/
def cellOrigin (uc : UnitCell) (origin : Vec3) (i j k : Nat) : Vec3 :=
  origin + (i : ℚ) • uc.a1 + (j : ℚ) • uc.a2 + (k : ℚ) • uc.a3

/-- Modelled from the spec: the LatticeBuilder's particle placement:
row-major loops over the cell index `(i, j, k)` and then the basis index,
each particle at the cell origin plus the basis particle's fractional
position. -/
def latticePositions (uc : UnitCell) (origin : Vec3) (n : Nat × Nat × Nat) : List Vec3 :=
  (List.range n.1).flatMap (fun i =>
    (List.range n.2.1).flatMap (fun j =>
      (List.range n.2.2).flatMap (fun k =>
        uc.basisPos.map (fun bp => cellOrigin uc origin i j k + bp))))

/-- C3: lattice instantiation produces exactly `nx*ny*nz` basis replicas —
`nx*ny*nz*N` particles for an `N`-basis unit cell — placed at
`origin + i*a1 + j*a2 + k*a3 + fractional_position`, in row-major creation
order over `(i, j, k)` and then basis index, so the position of the
particle created at ordinal `((i*ny + j)*nz + k)*N + m` is that of basis
`m` in cell `(i, j, k)`. -/
theorem create_lattice_row_major (uc : UnitCell) (origin : Vec3) (nx ny nz : Nat)
    (i j k m : Nat) (hi : i < nx) (hj : j < ny) (hk : k < nz)
    (hm : m < uc.basisPos.length) :
    (latticePositions uc origin (nx, ny, nz)).length = nx * ny * nz * uc.basisPos.length
    ∧ (latticePositions uc origin (nx, ny, nz)).getD
        (((i * ny + j) * nz + k) * uc.basisPos.length + m) 0
      = cellOrigin uc origin i j k + uc.basisPos.getD m 0 := by
  set N := uc.basisPos.length with hN
  have hinner : ∀ i' j' k',
      (uc.basisPos.map (fun bp => cellOrigin uc origin i' j' k' + bp)).length = N := by
    intro i' j' k'; simp [hN]
  have hmid : ∀ i' j', ((List.range nz).flatMap (fun k' =>
      uc.basisPos.map (fun bp => cellOrigin uc origin i' j' k' + bp))).length = nz * N := by
    intro i' j'
    exact flatMap_range_uniform_length _ N nz (fun k' _ => hinner i' j' k')
  have houter : ∀ i', ((List.range ny).flatMap (fun j' =>
      (List.range nz).flatMap (fun k' =>
        uc.basisPos.map (fun bp => cellOrigin uc origin i' j' k' + bp)))).length
      = ny * (nz * N) := by
    intro i'
    exact flatMap_range_uniform_length _ (nz * N) ny (fun j' _ => hmid i' j')
  constructor
  · have htot : (latticePositions uc origin (nx, ny, nz)).length = nx * (ny * (nz * N)) :=
      flatMap_range_uniform_length _ (ny * (nz * N)) nx (fun i' _ => houter i')
    rw [htot]; ring
  · have hidx : ((i * ny + j) * nz + k) * N + m
        = i * (ny * (nz * N)) + (j * (nz * N) + (k * N + m)) := by ring
    have hr1 : k * N + m < nz * N := by
      calc k * N + m < k * N + N := by omega
        _ = (k + 1) * N := by ring
        _ ≤ nz * N := Nat.mul_le_mul_right N hk
    have hr2 : j * (nz * N) + (k * N + m) < ny * (nz * N) := by
      calc j * (nz * N) + (k * N + m) < j * (nz * N) + nz * N := by omega
        _ = (j + 1) * (nz * N) := by ring
        _ ≤ ny * (nz * N) := Nat.mul_le_mul_right (nz * N) hj
    rw [hidx]
    have step1 := flatMap_range_uniform_getD (0 : Vec3)
      (fun i' => (List.range ny).flatMap (fun j' =>
        (List.range nz).flatMap (fun k' =>
          uc.basisPos.map (fun bp => cellOrigin uc origin i' j' k' + bp))))
      (ny * (nz * N)) nx i (j * (nz * N) + (k * N + m))
      (fun i' _ => houter i') hi hr2
    rw [show latticePositions uc origin (nx, ny, nz)
        = (List.range nx).flatMap (fun i' => (List.range ny).flatMap (fun j' =>
            (List.range nz).flatMap (fun k' =>
              uc.basisPos.map (fun bp => cellOrigin uc origin i' j' k' + bp)))) from rfl]
    rw [step1]
    have step2 := flatMap_range_uniform_getD (0 : Vec3)
      (fun j' => (List.range nz).flatMap (fun k' =>
        uc.basisPos.map (fun bp => cellOrigin uc origin i j' k' + bp)))
      (nz * N) ny j (k * N + m) (fun j' _ => hmid i j') hj hr1
    rw [step2]
    have step3 := flatMap_range_uniform_getD (0 : Vec3)
      (fun k' => uc.basisPos.map (fun bp => cellOrigin uc origin i j k' + bp))
      N nz k m (fun k' _ => hinner i j k') hk hm
    rw [step3]
    rw [List.getD_eq_getElem _ _ (by simp [hN]; exact hm), List.getD_eq_getElem _ _ hm,
      List.getElem_map]

/-- Concrete unit cell for the row-major witness: two basis particles on a
unit grid. -/
def ucW : UnitCell :=
  ⟨⟨1, 0, 0⟩, ⟨0, 1, 0⟩, ⟨0, 0, 1⟩, [⟨0, 0, 0⟩, ⟨1/2, 0, 0⟩], [0, 0], []⟩

theorem create_lattice_row_major_witness :
    (latticePositions ucW 0 (2, 2, 1)).length = 2 * 2 * 1 * ucW.basisPos.length
    ∧ (latticePositions ucW 0 (2, 2, 1)).getD
        (((1 * 2 + 0) * 1 + 0) * ucW.basisPos.length + 1) 0
      = cellOrigin ucW 0 1 0 0 + ucW.basisPos.getD 1 0 :=
  create_lattice_row_major ucW 0 2 2 1 1 0 0 1 (by decide) (by decide) (by decide)
    (by decide)

/-- Modelled from the spec: resolve one axis of a bond rule's target cell
index: wrapped modulo `n` when the axis is periodic, kept when it lies in
`[0, n)`, and rejected (no bond) otherwise. -/
def wrapIdx (periodicAxis : Bool) (n : Nat) (t : Int) : Option Nat :=
  if periodicAxis then some ((t % (n : Int)).toNat)
  else if 0 ≤ t ∧ t < (n : Int) then some t.toNat else none

/-- The admissibility condition of the claim's wording: the target cell
index on one axis lies within `[0, n)` when the axis is not periodic, and
is always admissible (wrapped) when it is. -/
def axisOk (periodicAxis : Bool) (n : Nat) (t : Int) : Prop :=
  periodicAxis = true ∨ (0 ≤ t ∧ t < (n : Int))

instance (p : Bool) (n : Nat) (t : Int) : Decidable (axisOk p n t) := by
  unfold axisOk
  infer_instance

theorem wrapIdx_isSome (p : Bool) (n : Nat) (t : Int) :
    (wrapIdx p n t).isSome = true ↔ axisOk p n t := by
  cases p with
  | true => simp [wrapIdx, axisOk]
  | false =>
      by_cases h : 0 ≤ t ∧ t < (n : Int) <;> simp [wrapIdx, axisOk, h]

/-- Modelled from the spec: the ordinal of the basis-`m` particle of cell
`(i, j, k)` in the row-major creation order. -/
def pIndex (n : Nat × Nat × Nat) (nBasis : Nat) (cell : Nat × Nat × Nat) (m : Nat) : Nat :=
  ((cell.1 * n.2.1 + cell.2.1) * n.2.2 + cell.2.2) * nBasis + m

/-- Modelled from the spec: the target cell of a bond rule applied at a
given cell: each axis is wrapped or range-checked by `wrapIdx`; the target
exists only if every axis is admissible. -/
def bondTargetCell (n : Nat × Nat × Nat) (per : Bool × Bool × Bool)
    (cell : Nat × Nat × Nat) (off : Int × Int × Int) : Option (Nat × Nat × Nat) :=
  match wrapIdx per.1 n.1 ((cell.1 : Int) + off.1),
      wrapIdx per.2.1 n.2.1 ((cell.2.1 : Int) + off.2.1),
      wrapIdx per.2.2 n.2.2 ((cell.2.2 : Int) + off.2.2) with
  | some ti, some tj, some tk => some (ti, tj, tk)
  | _, _, _ => none

/-- Modelled from the spec: the bonds one rule creates at one cell: exactly
one bond from the rule's first basis particle of the cell to its second
basis particle of the target cell when the target is admissible, and none
(silent skip) otherwise. -/
def cellRuleBonds (uc : UnitCell) (n : Nat × Nat × Nat) (per : Bool × Bool × Bool)
    (cell : Nat × Nat × Nat) (r : BondRule) : List (Nat × Nat) :=
  match bondTargetCell n per cell r.off with
  | some tgt =>
      [(pIndex n uc.basisPos.length cell r.bi, pIndex n uc.basisPos.length tgt r.bj)]
  | none => []

/-- Modelled from the spec: all bonds of a lattice instantiation: every
bond rule applied at every cell of the `nx*ny*nz` grid. -/
def latticeBonds (uc : UnitCell) (n : Nat × Nat × Nat) (per : Bool × Bool × Bool) :
    List (Nat × Nat) :=
  (List.range n.1).flatMap (fun i =>
    (List.range n.2.1).flatMap (fun j =>
      (List.range n.2.2).flatMap (fun k =>
        uc.bondRules.flatMap (fun r => cellRuleBonds uc n per (i, j, k) r))))

theorem cellRuleBonds_length (uc : UnitCell) (n : Nat × Nat × Nat)
    (per : Bool × Bool × Bool) (cell : Nat × Nat × Nat) (r : BondRule) :
    (cellRuleBonds uc n per cell r).length
      = if axisOk per.1 n.1 ((cell.1 : Int) + r.off.1)
          ∧ axisOk per.2.1 n.2.1 ((cell.2.1 : Int) + r.off.2.1)
          ∧ axisOk per.2.2 n.2.2 ((cell.2.2 : Int) + r.off.2.2) then 1 else 0 := by
  rcases h1 : wrapIdx per.1 n.1 ((cell.1 : Int) + r.off.1) with _ | t1 <;>
    rcases h2 : wrapIdx per.2.1 n.2.1 ((cell.2.1 : Int) + r.off.2.1) with _ | t2 <;>
    rcases h3 : wrapIdx per.2.2 n.2.2 ((cell.2.2 : Int) + r.off.2.2) with _ | t3 <;>
    simp [cellRuleBonds, bondTargetCell, h1, h2, h3, ← wrapIdx_isSome]

/-- Concrete single-rule two-basis unit cell of the spec's scenario: the
rule reaches from basis 0 of a cell to basis 1 of the `+x` neighbor
cell. -/
def ucPairW : UnitCell :=
  ⟨⟨1, 0, 0⟩, ⟨0, 1, 0⟩, ⟨0, 0, 1⟩, [⟨0, 0, 0⟩, ⟨1/2, 0, 0⟩], [0, 0],
    [⟨0, 1, (1, 0, 0)⟩]⟩

/-- C2 counterexample: the claim's concrete scenario — a 2-basis-particle
unit cell with ONE bond rule, replicated 10x10 with both axes periodic —
creates one bond per rule per cell, hence 10*10 bonds, not 2*10*10. -/
theorem lattice_pair_count_cex :
    (latticeBonds ucPairW (10, 10, 1) (true, true, true)).length ≠ 2 * 10 * 10 := by
  decide

/-- C2 (amended): each bond rule creates exactly one bond per cell when the
target cell is admissible (wrapped on periodic axes, in `[0, n)` on
non-periodic axes) and none otherwise; consequently the single-rule
2-basis 10x10 scenario yields exactly `10*10` bonds with both axes
periodic, and disabling periodicity on the axis crossed by the rule
reduces the bond count by exactly 10. -/
theorem lattice_bond_counts :
    (∀ (uc : UnitCell) (n : Nat × Nat × Nat) (per : Bool × Bool × Bool)
        (cell : Nat × Nat × Nat) (r : BondRule),
        ((cellRuleBonds uc n per cell r).length = 1 ↔
          axisOk per.1 n.1 ((cell.1 : Int) + r.off.1)
            ∧ axisOk per.2.1 n.2.1 ((cell.2.1 : Int) + r.off.2.1)
            ∧ axisOk per.2.2 n.2.2 ((cell.2.2 : Int) + r.off.2.2))
        ∧ ((cellRuleBonds uc n per cell r) = [] ↔
          ¬(axisOk per.1 n.1 ((cell.1 : Int) + r.off.1)
            ∧ axisOk per.2.1 n.2.1 ((cell.2.1 : Int) + r.off.2.1)
            ∧ axisOk per.2.2 n.2.2 ((cell.2.2 : Int) + r.off.2.2))))
    ∧ (latticeBonds ucPairW (10, 10, 1) (true, true, true)).length = 10 * 10
    ∧ (latticeBonds ucPairW (10, 10, 1) (false, true, true)).length = 10 * 10 - 10 := by
  refine ⟨?_, by decide, by decide⟩
  intro uc n per cell r
  have hlen := cellRuleBonds_length uc n per cell r
  by_cases hok : axisOk per.1 n.1 ((cell.1 : Int) + r.off.1)
      ∧ axisOk per.2.1 n.2.1 ((cell.2.1 : Int) + r.off.2.1)
      ∧ axisOk per.2.2 n.2.2 ((cell.2.2 : Int) + r.off.2.2)
  · rw [if_pos hok] at hlen
    constructor
    · exact ⟨fun _ => hok, fun _ => hlen⟩
    · constructor
      · intro hnil
        rw [hnil] at hlen
        exact absurd hlen (by simp)
      · intro hn
        exact absurd hok hn
  · rw [if_neg hok] at hlen
    constructor
    · constructor
      · intro h1
        rw [h1] at hlen
        exact absurd hlen (by simp)
      · intro h
        exact absurd h hok
    · exact ⟨fun _ => hok, fun _ => List.length_eq_zero.mp hlen⟩

theorem lattice_bond_counts_witness :
    cellRuleBonds ucPairW (10, 10, 1) (false, true, true) (9, 0, 0) ⟨0, 1, (1, 0, 0)⟩
      = [] :=
  ((lattice_bond_counts).1 ucPairW (10, 10, 1) (false, true, true) (9, 0, 0)
    ⟨0, 1, (1, 0, 0)⟩).2.mpr (by decide)

/-- Modelled from the spec: a lattice construction error. -/
inductive LatticeError where
  | badBasisIndex
deriving DecidableEq

/-- Modelled from the spec: `create_lattice` / `instantiate_lattice` at the
level of positions and bond endpoints: every bond rule's basis indices are
validated against `[0, N)` before anything is created; on failure a
construction error is reported and nothing is produced. -/
def create_lattice (uc : UnitCell) (origin : Vec3) (n : Nat × Nat × Nat)
    (per : Bool × Bool × Bool) :
    Except LatticeError (List Vec3 × List (Nat × Nat)) :=
  if uc.bondRules.all (fun r => decide (r.bi < uc.basisPos.length)
      && decide (r.bj < uc.basisPos.length)) then
    Except.ok (latticePositions uc origin n, latticeBonds uc n per)
  else Except.error LatticeError.badBasisIndex

/-- Modelled from the spec: lattice instantiation against a simulation
state: on success, the created particles and bonds are appended to the
particle pool and the BondedNetwork; a construction error leaves the state
untouched (the caller receives the error and no new state). -/
def instantiateLattice (st : SimState) (uc : UnitCell) (origin : Vec3)
    (n : Nat × Nat × Nat) (per : Bool × Bool × Bool) : Except LatticeError SimState :=
  match create_lattice uc origin n per with
  | Except.ok (ps, bs) =>
      Except.ok
        ⟨st.pool ++ ps.enum.map (fun ip =>
            ⟨st.pool.length + ip.1,
              uc.basisTypes.getD (ip.1 % uc.basisPos.length) 0, ip.2, 0,
              [], true⟩),
          st.bonds ++ bs.enum.map (fun ib =>
            ⟨st.bonds.length + ib.1, st.pool.length + ib.2.1,
              st.pool.length + ib.2.2, none⟩)⟩
  | Except.error e => Except.error e

/-- C9: a unit cell with a bond rule referencing a basis index outside
`[0, N)` makes lattice instantiation fail with a construction error before
any particle is created: the result is the reported error, never a new
state, so the particle pool and the BondedNetwork are left exactly as they
were. -/
theorem lattice_fail_fast (st : SimState) (uc : UnitCell) (origin : Vec3)
    (n : Nat × Nat × Nat) (per : Bool × Bool × Bool) (r : BondRule)
    (hr : r ∈ uc.bondRules)
    (hbad : uc.basisPos.length ≤ r.bi ∨ uc.basisPos.length ≤ r.bj) :
    instantiateLattice st uc origin n per = Except.error LatticeError.badBasisIndex
    ∧ ∀ st' : SimState, instantiateLattice st uc origin n per ≠ Except.ok st' := by
  have hall : ¬(uc.bondRules.all (fun r' => decide (r'.bi < uc.basisPos.length)
      && decide (r'.bj < uc.basisPos.length)) = true) := by
    intro h
    have hpred := List.all_eq_true.mp h r hr
    simp only [Bool.and_eq_true, decide_eq_true_eq] at hpred
    omega
  have hcl : create_lattice uc origin n per = Except.error LatticeError.badBasisIndex := by
    rw [create_lattice, if_neg hall]
  constructor
  · rw [instantiateLattice, hcl]
  · intro st' hok
    rw [instantiateLattice, hcl] at hok
    exact Except.noConfusion hok

/-- Concrete invalid unit cell: one basis particle, a bond rule referencing
basis index 1. -/
def ucBadW : UnitCell :=
  ⟨⟨1, 0, 0⟩, ⟨0, 1, 0⟩, ⟨0, 0, 1⟩, [⟨0, 0, 0⟩], [0], [⟨1, 0, (0, 0, 0)⟩]⟩

theorem lattice_fail_fast_witness :
    instantiateLattice stW ucBadW 0 (3, 3, 3) (true, true, true)
      = Except.error LatticeError.badBasisIndex :=
  (lattice_fail_fast stW ucBadW 0 (3, 3, 3) (true, true, true) ⟨1, 0, (0, 0, 0)⟩
    (by simp [ucBadW]) (by simp [ucBadW])).1

end Mechanica
